import Mathlib

/-!
# Verification of the TaskmasterAI AI-service layer

Shallow embedding of `src/services/geminiService.ts`.  JavaScript strings are
modelled as `List Char`; the streamed response of the model backend is
modelled as an explicit list of fragments (`Option (List Char)`: `none` is a
chunk whose `text` field is not a string and is skipped by the code); a
transport failure after the delivered fragments is an explicit
`Option JsError`.  Callback invocations are recorded as explicit event lists
in arrival order.
-/

namespace Taskmaster

/-- The whitespace class used by JavaScript `String.prototype.trim` and the
regular-expression class `\s` (the common members; all characters appearing
in this development are covered). -/
def isJsWhitespace (c : Char) : Bool :=
  c == ' ' || c == '\t' || c == '\n' || c == '\r' || c == '\x0b' ||
  c == '\x0c' || c == '\u00A0' || c == '\u2028' || c == '\u2029' || c == '\uFEFF'

/-- JavaScript `String.prototype.trim`: drop leading and trailing whitespace. -/
def jsTrim (s : List Char) : List Char :=
  ((s.dropWhile isJsWhitespace).reverse.dropWhile isJsWhitespace).reverse

/-- JavaScript `s.indexOf('\n')`, with `-1` rendered as `none`. -/
def indexOfNL : List Char → Option Nat
  | [] => none
  | c :: rest => if c == '\n' then some 0 else (indexOfNL rest).map (· + 1)

/-- A JavaScript `Error` value (only its message is relevant here). -/
structure JsError where
  message : List Char
deriving DecidableEq

/-- A callback invocation recorded during `enhanceTaskWithAIStream`:
`title s` is a call `onTitleCandidate(s)`, `body s` a call
`onDescriptionCandidate(s)`. -/
inductive Event where
  | title (s : List Char)
  | body (s : List Char)
deriving DecidableEq

/-- The per-session mutable state of `enhanceTaskWithAIStream`
(`geminiService.ts` lines 128–140), plus the recorded callback trace. -/
structure EnhState where
  accumulated : List Char
  finalTitle : List Char
  finalDescription : List Char
  titleSent : Bool
  firstNewlineIndex : Option Nat
  events : List Event

/-- Initial state of a streaming session (lines 128–131, 140): the final
title/description start out as the caller-provided current values. -/
def initEnhState (t d : List Char) : EnhState :=
  { accumulated := []
    finalTitle := t
    finalDescription := d
    titleSent := false
    firstNewlineIndex := none
    events := [] }

/-- One iteration of the `for await` loop of `enhanceTaskWithAIStream`
(lines 142–165).  A `none` chunk is one whose `text` is not a string and is
skipped (`continue`, line 144). -/
def absorbChunk (s : EnhState) (chunk : Option (List Char)) : EnhState :=
  match chunk with
  | none => s
  | some c =>
    let acc := s.accumulated ++ c
    match s.firstNewlineIndex with
    | none =>
      match indexOfNL acc with
      | some idx =>
        let ft := jsTrim (acc.take idx)
        let fd := acc.drop (idx + 1)
        { accumulated := acc
          finalTitle := ft
          finalDescription := fd
          titleSent := true
          firstNewlineIndex := some idx
          events := s.events ++ [Event.title ft, Event.body fd] }
      | none =>
        let ft := jsTrim acc
        { s with accumulated := acc
                 finalTitle := ft
                 events := s.events ++ [Event.title ft] }
    | some idx =>
      let fd := acc.drop (idx + 1)
      { s with accumulated := acc
               finalDescription := fd
               events := s.events ++ [Event.body fd] }

/-- The state after the stream loop has consumed a list of string fragments. -/
def streamLoop (t d : List Char) (chunks : List (List Char)) : EnhState :=
  chunks.foldl (fun s c => absorbChunk s (some c)) (initEnhState t d)

/-- The final recomputation of `{title, body}` from the complete accumulated
text (lines 167–174): split at the first newline, trimming both parts; with
no newline the body is empty. -/
def splitFinal (acc : List Char) : List Char × List Char :=
  match indexOfNL acc with
  | some idx => (jsTrim (acc.take idx), jsTrim (acc.drop (idx + 1)))
  | none => (jsTrim acc, [])

/-- The completion-time callback invocations (lines 176–181): the title is
resent if already sent, sent if non-empty (JavaScript truthiness of
`finalTitle`), and the body callback always fires once more. -/
def finalizeEvents (titleSent : Bool) (ft fd : List Char) : List Event :=
  (if titleSent then [Event.title ft]
   else if !ft.isEmpty then [Event.title ft] else []) ++ [Event.body fd]

/-- Stream completion (lines 167–183): recompute the split from the full
accumulation and fire the completion callbacks. -/
def finalizeEnh (s : EnhState) : EnhState :=
  let p := splitFinal s.accumulated
  { s with finalTitle := p.1
           finalDescription := p.2
           events := s.events ++ finalizeEvents s.titleSent p.1 p.2 }

/-- A whole successful streaming session of `enhanceTaskWithAIStream`:
absorb every chunk, then finalize. -/
def runEnhance (t d : List Char) (chunks : List (Option (List Char))) : EnhState :=
  finalizeEnh (chunks.foldl absorbChunk (initEnhState t d))

/-- `enhanceTaskWithAIStream` (lines 103–189) as a function of the transport
behaviour: the fragments delivered, and `some e` when the transport raises
`e` after delivering them.  Returns the result (or re-raised error, line 187)
and the callback trace. -/
def enhanceTaskWithAIStream (t d : List Char) (chunks : List (Option (List Char)))
    (err : Option JsError) :
    Except JsError (List Char × List Char) × List Event :=
  match err with
  | none =>
    let s := runEnhance t d chunks
    (Except.ok (s.finalTitle, s.finalDescription), s.events)
  | some e => (Except.error e, (chunks.foldl absorbChunk (initEnhState t d)).events)

/-! ## `streamContextualInfoWithAI`: response objects and source extraction -/

/-- The `web` field of a grounding chunk: `candidates[0].groundingMetadata.
groundingChunks[].web.{uri,title}`; either field may be absent. -/
structure WebRef where
  uri : Option (List Char)
  title : Option (List Char)
deriving DecidableEq

/-- One element of `groundingMetadata.groundingChunks`. -/
structure GroundingChunkRef where
  web : Option WebRef
deriving DecidableEq

/-- `groundingMetadata` of a candidate; `groundingChunks` may be absent. -/
structure GroundingMetadata where
  groundingChunks : Option (List GroundingChunkRef)
deriving DecidableEq

/-- One element of a response's `candidates` array. -/
structure Candidate where
  groundingMetadata : Option GroundingMetadata
deriving DecidableEq

/-- A (partial) `GenerateContentResponse`: the `text` accessor (absent when
not a string) and the optional `candidates` array. -/
structure Response where
  text : Option (List Char)
  candidates : Option (List Candidate)
deriving DecidableEq

/-- A cited source, `{uri, title}` (`types.ts`, `ContextualSource`). -/
structure ContextualSource where
  uri : List Char
  title : List Char
deriving DecidableEq

/-- A callback invocation recorded during `streamContextualInfoWithAI`:
`chunkText s` is a call `onChunk(s)`, `sources l` a call `onSources(l)`. -/
inductive CtxEvent where
  | chunkText (s : List Char)
  | sources (l : List ContextualSource)
deriving DecidableEq

/-- JavaScript `"http".isPrefixOf`-style test: `uri.startsWith('http')`
(line 311). -/
def startsWithHttp (u : List Char) : Bool :=
  List.isPrefixOf "http".data u

/-- The filter of line 311 / 328: `web?.uri && web.uri.startsWith('http')` —
the `web` field exists, its `uri` exists, is non-empty (truthiness) and
starts with the four characters `http`. -/
def webKeep : Option WebRef → Bool
  | none => false
  | some w =>
    match w.uri with
    | none => false
    | some u => !u.isEmpty && startsWithHttp u

/-- The map of line 312 / 329: `{uri: web!.uri, title: web!.title || web!.uri}`.
The `||` falls back to the uri when the title is absent or empty (JavaScript
truthiness); the `none` cases are unreachable after `webKeep`. -/
def webToSource : Option WebRef → ContextualSource
  | none => { uri := [], title := [] }
  | some w =>
    let u := w.uri.getD []
    { uri := u
      title := match w.title with
               | none => u
               | some t => if t.isEmpty then u else t }

/-- Lines 309–312: `groundingChunks.map(gc => gc.web).filter(...).map(...)`. -/
def sourcesOfChunks (gcs : List GroundingChunkRef) : List ContextualSource :=
  ((gcs.map GroundingChunkRef.web).filter webKeep).map webToSource

/-- Line 307 / 324: `finalApiResponse.candidates?.[0]?.groundingMetadata`. -/
def groundingOf (r : Response) : Option GroundingMetadata :=
  (r.candidates.bind List.head?).bind Candidate.groundingMetadata

/-- The source list the extraction computes from a retained response:
empty when metadata or chunks are missing or everything is filtered out. -/
def sourcesFromResponse (r : Response) : List ContextualSource :=
  match groundingOf r with
  | some gm =>
    match gm.groundingChunks with
    | some gcs => sourcesOfChunks gcs
    | none => []
  | none => []

/-- Lines 306–317 (success path): with a retained response, call `onSources`
with the extracted list when `groundingChunks` is present and non-empty,
otherwise with `[]`; with no retained response, no call at all. -/
def successSourceEvents : Option Response → List CtxEvent
  | none => []
  | some r =>
    match groundingOf r with
    | some gm =>
      match gm.groundingChunks with
      | some gcs =>
        if gcs.length > 0 then [CtxEvent.sources (sourcesOfChunks gcs)]
        else [CtxEvent.sources []]
      | none => [CtxEvent.sources []]
    | none => [CtxEvent.sources []]

/-- Lines 323–332 (catch path): best-effort extraction — `onSources` is
called only when a response was retained and its `groundingChunks` is
present and non-empty; there is no `else onSources([])` here. -/
def catchSourceEvents : Option Response → List CtxEvent
  | none => []
  | some r =>
    match groundingOf r with
    | some gm =>
      match gm.groundingChunks with
      | some gcs =>
        if gcs.length > 0 then [CtxEvent.sources (sourcesOfChunks gcs)]
        else []
      | none => []
    | none => []

/-- The `onChunk` calls of the loop (lines 297–304): one per response whose
`text` is a string. -/
def ctxChunkEvents (rs : List Response) : List CtxEvent :=
  rs.filterMap (fun r => r.text.map CtxEvent.chunkText)

/-- The accumulated text of the loop. -/
def ctxAccumulated (rs : List Response) : List Char :=
  (rs.filterMap Response.text).flatten

/-- `streamContextualInfoWithAI` (lines 267–335) as a function of the
transport behaviour: `rs` are the response objects delivered in order
(`finalApiResponse` ends up as the last of them), and `err = some e` when
the transport raises `e` after delivering them.  Returns the result (the
accumulated text, or the re-raised error) and the callback trace. -/
def streamContextualInfoWithAI (rs : List Response) (err : Option JsError) :
    Except JsError (List Char) × List CtxEvent :=
  match err with
  | none => (Except.ok (ctxAccumulated rs), ctxChunkEvents rs ++ successSourceEvents rs.getLast?)
  | some e => (Except.error e, ctxChunkEvents rs ++ catchSourceEvents rs.getLast?)

/-- `streamSubTasksWithAI` (lines 228–265): forward each string chunk to
`onChunk`, return the concatenation; re-raise a transport error unchanged
(line 263). -/
def streamSubTasksWithAI (rs : List (Option (List Char))) (err : Option JsError) :
    Except JsError (List Char) × List (List Char) :=
  let texts := rs.filterMap id
  match err with
  | none => (Except.ok texts.flatten, texts)
  | some e => (Except.error e, texts)

/-! ## JSON values, `parseTaskStringWithAI` and `suggestTagsWithAI` -/

/-- A JSON value as produced by `JSON.parse` (numbers as integers suffice for
this development). -/
inductive JsonVal where
  | null
  | bool (b : Bool)
  | num (n : Int)
  | str (s : List Char)
  | arr (elems : List JsonVal)
  | obj (fields : List (List Char × JsonVal))

/-- JavaScript truthiness of a JSON value. -/
def jsTruthy : JsonVal → Bool
  | .null => false
  | .bool b => b
  | .num n => n != 0
  | .str s => !s.isEmpty
  | .arr _ => true
  | .obj _ => true

/-- JavaScript truthiness of a possibly-absent (`undefined`) value. -/
def jsTruthyOpt : Option JsonVal → Bool
  | none => false
  | some v => jsTruthy v

/-- `Array.isArray`. -/
def isArrayVal : JsonVal → Bool
  | .arr _ => true
  | _ => false

/-- Property read on a parsed JSON object (`JSON.parse` keeps the last of
duplicate keys). -/
def jsGetField (fields : List (List Char × JsonVal)) (k : List Char) : Option JsonVal :=
  (fields.reverse.find? (fun f => f.1 == k)).map Prod.snd

/-- The parsed object viewed through the `AiParsedTask` interface
(`types.ts`): each field a possibly-absent JSON value. -/
structure AiParsedTask where
  title : Option JsonVal
  description : Option JsonVal
  dueDate : Option JsonVal
  priority : Option JsonVal
  tags : Option JsonVal

/-- The cast `JSON.parse(jsonStr) as AiParsedTask` on an object (line 71). -/
def toAiParsedTask (fields : List (List Char × JsonVal)) : AiParsedTask :=
  { title := jsGetField fields "title".data
    description := jsGetField fields "description".data
    dueDate := jsGetField fields "dueDate".data
    priority := jsGetField fields "priority".data
    tags := jsGetField fields "tags".data }

/-- `['Low', 'Medium', 'High'].includes(prio)` under strict equality:
only the three string literals pass. -/
def isPriorityLiteral : JsonVal → Bool
  | .str s => s == "Low".data || s == "Medium".data || s == "High".data
  | _ => false

/-- Lines 73–80: `if (parsedData.priority) { ... }` — only a truthy priority
is inspected; a truthy non-literal is set to `null`; falsy values (absent,
`null`, `false`, `0`, `""`) are left untouched. -/
def normalizePriority (p : Option JsonVal) : Option JsonVal :=
  if jsTruthyOpt p then
    match p with
    | some v => if isPriorityLiteral v then some v else some JsonVal.null
    | none => none
  else p

/-- Lines 81–83: `if (!parsedData.tags || !Array.isArray(parsedData.tags))
parsedData.tags = []`. -/
def normalizeTags (t : Option JsonVal) : Option JsonVal :=
  if !jsTruthyOpt t || !(t.any isArrayVal) then some (JsonVal.arr []) else t

/-- The field coercions of `parseTaskStringWithAI` (lines 73–83). -/
def normalizeAiParsedTask (p : AiParsedTask) : AiParsedTask :=
  { p with priority := normalizePriority p.priority, tags := normalizeTags p.tags }

/-- The outcome of issuing a call on the underlying transport: a
transport/network error, or a delivered response of shape `α`. -/
inductive CallOutcome (α : Type) where
  | transportError (e : JsError)
  | response (r : α)

/-- The catch block of `parseTaskStringWithAI` (lines 88–95): every caught
error (all modelled errors are `Error` instances) is replaced by a fresh
`Error` whose message extends the caught one. -/
def parseTaskCatch (e : JsError) : JsError :=
  ⟨"Failed to parse task with AI.".data ++ " Details: ".data ++ e.message⟩

/-- `parseTaskStringWithAI` (lines 18–96) as a function of the call outcome;
the response payload is the result of `JSON.parse` on the fence-stripped
response text (which may itself fail, flowing into the same catch block).
Only object-shaped payloads are relevant here (the claims restrict to them);
the normalized object is returned on success. -/
def parseTaskStringWithAI (call : CallOutcome (Except JsError JsonVal)) :
    Except JsError AiParsedTask :=
  match call with
  | .transportError e => .error (parseTaskCatch e)
  | .response (.error e) => .error (parseTaskCatch e)
  | .response (.ok j) =>
    match j with
    | .obj fields => .ok (normalizeAiParsedTask (toAiParsedTask fields))
    | _ => .ok (normalizeAiParsedTask (toAiParsedTask []))

/-- The scanning state of the global regular-expression replacement
`replace(/\s+/g, '-')` (line 219): `inRun` records whether the scanner is
inside a whitespace run whose replacement hyphen has already been emitted. -/
def replaceWsRunsAux : Bool → List Char → List Char
  | _, [] => []
  | inRun, c :: rest =>
    if isJsWhitespace c then
      if inRun then replaceWsRunsAux true rest
      else '-' :: replaceWsRunsAux true rest
    else c :: replaceWsRunsAux false rest

/-- The regular-expression replacement `replace(/\s+/g, '-')` (line 219):
each maximal run of whitespace, wherever it occurs, becomes one hyphen. -/
def replaceWsRuns (l : List Char) : List Char :=
  replaceWsRunsAux false l

/-- `tag.toLowerCase().replace(/\s+/g, '-')` (line 219). -/
def normalizeTag (s : List Char) : List Char :=
  replaceWsRuns (s.map Char.toLower)

/-- `v` is a JSON string; yields its characters. -/
def asString : JsonVal → Option (List Char)
  | .str s => some s
  | _ => none

/-- `Array.isArray(parsedTags) && parsedTags.every(tag => typeof tag ===
'string')` (line 218). -/
def isStringArray : JsonVal → Bool
  | .arr l => l.all (fun v => (asString v).isSome)
  | _ => false

/-- The error thrown by the catch block of `suggestTagsWithAI` (line 224). -/
def suggestTagsFailure : JsError :=
  ⟨"Failed to suggest tags with AI.".data⟩

/-- `suggestTagsWithAI` (lines 191–226) as a function of the call outcome;
the response payload is the `JSON.parse` attempt on the fence-stripped
response text.  A payload that is not an array of strings yields `[]`
(line 221); any caught error is replaced by the fixed failure error. -/
def suggestTagsWithAI (call : CallOutcome (Except JsError JsonVal)) :
    Except JsError (List (List Char)) :=
  match call with
  | .transportError _ => .error suggestTagsFailure
  | .response (.error _) => .error suggestTagsFailure
  | .response (.ok j) =>
    match j with
    | .arr l =>
      if l.all (fun v => (asString v).isSome) then
        .ok ((l.filterMap asString).map normalizeTag)
      else .ok []
    | _ => .ok []

/-! ## Helper lemmas -/

theorem indexOfNL_eq_none_iff (l : List Char) : indexOfNL l = none ↔ '\n' ∉ l := by
  induction l with
  | nil => simp [indexOfNL]
  | cons c rest ih =>
    simp only [indexOfNL, List.mem_cons]
    cases hc : (c == '\n') with
    | true =>
      have hcc : c = '\n' := eq_of_beq hc
      subst hcc
      simp
    | false =>
      have hne : ¬('\n' = c) := fun h => by simp [h.symm] at hc
      simp [Option.map_eq_none', ih, hne]

theorem indexOfNL_append_of_some {l₁ : List Char} {k : Nat}
    (h : indexOfNL l₁ = some k) (l₂ : List Char) : indexOfNL (l₁ ++ l₂) = some k := by
  induction l₁ generalizing k with
  | nil => simp [indexOfNL] at h
  | cons c rest ih =>
    simp only [indexOfNL, List.cons_append] at h ⊢
    cases hc : (c == '\n') with
    | true => simpa [hc] using h
    | false =>
      simp only [hc, if_false, Bool.false_eq_true] at h ⊢
      obtain ⟨k', hk', rfl⟩ := Option.map_eq_some'.mp h
      simp [ih hk']

theorem indexOfNL_eq_some_of_first {l : List Char} {k : Nat}
    (h1 : (l.drop k).head? = some '\n') (h2 : '\n' ∉ l.take k) :
    indexOfNL l = some k := by
  induction l generalizing k with
  | nil => simp at h1
  | cons c rest ih =>
    cases k with
    | zero =>
      simp only [List.drop_zero, List.head?_cons, Option.some.injEq] at h1
      simp [indexOfNL, h1]
    | succ k =>
      simp only [List.take_succ_cons, List.mem_cons, not_or] at h2
      have hc : (c == '\n') = false := by
        cases hb : (c == '\n') with
        | true => exact absurd (eq_of_beq hb).symm h2.1
        | false => rfl
      simp only [List.drop_succ_cons] at h1
      simp [indexOfNL, hc, ih h1 h2.2]

theorem absorbChunk_accumulated (s : EnhState) (c : Option (List Char)) :
    (absorbChunk s c).accumulated = s.accumulated ++ c.getD [] := by
  match c with
  | none => simp [absorbChunk]
  | some c =>
    simp only [absorbChunk, Option.getD_some]
    cases s.firstNewlineIndex with
    | none => cases indexOfNL (s.accumulated ++ c) <;> rfl
    | some idx => rfl

theorem foldl_absorbChunk_accumulated (chunks : List (Option (List Char))) (s : EnhState) :
    (chunks.foldl absorbChunk s).accumulated
      = s.accumulated ++ (chunks.filterMap id).flatten := by
  induction chunks generalizing s with
  | nil => simp
  | cons c rest ih =>
    cases c with
    | none => simpa [absorbChunk] using ih s
    | some c =>
      simp [ih, absorbChunk_accumulated, List.append_assoc]

theorem streamLoop_append_one (t d : List Char) (chunks : List (List Char)) (c : List Char) :
    streamLoop t d (chunks ++ [c]) = absorbChunk (streamLoop t d chunks) (some c) := by
  simp [streamLoop, List.foldl_append]

theorem streamLoop_invariant (t d : List Char) (chunks : List (List Char)) :
    (streamLoop t d chunks).accumulated = chunks.flatten ∧
    (streamLoop t d chunks).firstNewlineIndex = indexOfNL chunks.flatten ∧
    (streamLoop t d chunks).titleSent = (indexOfNL chunks.flatten).isSome := by
  induction chunks using List.reverseRecOn with
  | nil => simp [streamLoop, initEnhState, indexOfNL]
  | append_singleton chunks c ih =>
    obtain ⟨hacc, hidx, hsent⟩ := ih
    have hflat : (chunks ++ [c]).flatten = chunks.flatten ++ c := by
      simp [List.flatten_append]
    rw [streamLoop_append_one, hflat]
    cases hnl : indexOfNL chunks.flatten with
    | none =>
      rw [hnl] at hidx hsent
      simp only [absorbChunk, hacc, hidx]
      cases hnl2 : indexOfNL (chunks.flatten ++ c) with
      | none => simp [hnl2, hsent]
      | some k => simp [hnl2]
    | some k =>
      rw [hnl] at hidx hsent
      have happ : indexOfNL (chunks.flatten ++ c) = some k :=
        indexOfNL_append_of_some hnl c
      simp [absorbChunk, hacc, hidx, happ, hsent]

theorem runEnhance_map_some (t d : List Char) (chunks : List (List Char)) :
    runEnhance t d (chunks.map some) = finalizeEnh (streamLoop t d chunks) := by
  simp [runEnhance, streamLoop, List.foldl_map]

/-- The concatenation of all string fragments of a session (skipped
non-string chunks contribute nothing). -/
def catOf (chunks : List (Option (List Char))) : List Char :=
  (chunks.filterMap id).flatten

/-- C1: for every fragment sequence consumed by `enhanceTaskWithAIStream`,
the finalized `{title, body}` pair depends only on the concatenation of all
fragments: with no newline in the concatenation the finalized body is `""`
and the finalized title is the trimmed concatenation; with the first newline
at absolute position `k`, the finalized title is the trimmed text before `k`
and the finalized body the trimmed text after `k`, regardless of how the
newline is split across fragment boundaries. -/
theorem enhance_final_split_depends_only_on_concatenation
    (t d : List Char) (chunks : List (Option (List Char))) :
    (('\n' ∉ catOf chunks) →
        (runEnhance t d chunks).finalTitle = jsTrim (catOf chunks) ∧
        (runEnhance t d chunks).finalDescription = [])
  ∧ (∀ k : Nat, ((catOf chunks).drop k).head? = some '\n' →
        '\n' ∉ (catOf chunks).take k →
        (runEnhance t d chunks).finalTitle = jsTrim ((catOf chunks).take k) ∧
        (runEnhance t d chunks).finalDescription
          = jsTrim ((catOf chunks).drop (k + 1))) := by
  have hacc : (chunks.foldl absorbChunk (initEnhState t d)).accumulated = catOf chunks := by
    simpa [initEnhState] using foldl_absorbChunk_accumulated chunks (initEnhState t d)
  constructor
  · intro hno
    have hnone : indexOfNL (catOf chunks) = none := (indexOfNL_eq_none_iff _).mpr hno
    simp [runEnhance, finalizeEnh, splitFinal, hacc, hnone]
  · intro k h1 h2
    have hsome : indexOfNL (catOf chunks) = some k := indexOfNL_eq_some_of_first h1 h2
    simp [runEnhance, finalizeEnh, splitFinal, hacc, hsome]

/-- Witness for C1 at the spec's own example `["ab", "c\nde", "f"]`:
title `"abc"`, body `"def"`. -/
theorem enhance_final_split_depends_only_on_concatenation_witness :
    (runEnhance [] [] [some "ab".data, some "c\nde".data, some "f".data]).finalTitle
      = "abc".data
  ∧ (runEnhance [] [] [some "ab".data, some "c\nde".data, some "f".data]).finalDescription
      = "def".data := by
  have h := (enhance_final_split_depends_only_on_concatenation [] []
      [some "ab".data, some "c\nde".data, some "f".data]).2 3 (by decide) (by decide)
  exact ⟨h.1.trans (by decide), h.2.trans (by decide)⟩

/-- C2: after each absorbed fragment, while no newline has appeared the
title callback fires with the full trimmed accumulation and the body
callback does not fire; on the fragment where the first newline appears the
title callback fires with the trimmed prefix and the body callback with the
untrimmed suffix; on every later fragment only the body callback fires with
the updated untrimmed suffix and the title callback is not re-notified.  In
particular the spec's scenario `["Buy milk\n", "Remember ", "the reusable
bags."]` produces exactly its callback sequence and final return value. -/
theorem enhance_callbacks_per_fragment :
    (∀ (t d : List Char) (chunks : List (List Char)) (c : List Char),
      (streamLoop t d (chunks ++ [c])).events
        = (streamLoop t d chunks).events ++
          (match indexOfNL chunks.flatten with
           | some k => [Event.body ((chunks.flatten ++ c).drop (k + 1))]
           | none =>
             match indexOfNL (chunks.flatten ++ c) with
             | none => [Event.title (jsTrim (chunks.flatten ++ c))]
             | some k => [Event.title (jsTrim ((chunks.flatten ++ c).take k)),
                          Event.body ((chunks.flatten ++ c).drop (k + 1))]))
  ∧ (streamLoop [] [] ["Buy milk\n".data, "Remember ".data, "the reusable bags.".data]).events
      = [Event.title "Buy milk".data, Event.body [],
         Event.body "Remember ".data, Event.body "Remember the reusable bags.".data]
  ∧ (runEnhance [] [] (["Buy milk\n".data, "Remember ".data,
        "the reusable bags.".data].map some)).finalTitle = "Buy milk".data
  ∧ (runEnhance [] [] (["Buy milk\n".data, "Remember ".data,
        "the reusable bags.".data].map some)).finalDescription
      = "Remember the reusable bags.".data := by
  refine ⟨?_, by decide, by decide, by decide⟩
  intro t d chunks c
  obtain ⟨hacc, hidx, _⟩ := streamLoop_invariant t d chunks
  rw [streamLoop_append_one]
  cases hnl : indexOfNL chunks.flatten with
  | none =>
    rw [hnl] at hidx
    simp only [absorbChunk, hacc, hidx]
    cases hnl2 : indexOfNL (chunks.flatten ++ c) with
    | none => simp
    | some k => simp
  | some k =>
    rw [hnl] at hidx
    simp [absorbChunk, hacc, hidx]

/-- C3 counterexample: for the empty fragment sequence (accumulated text
empty) the complete callback trace of the session is a single body call —
the title callback is never invoked, neither during the loop nor at
completion, contradicting the claim that on completion the title callback is
notified for every fragment sequence. -/
theorem enhance_completion_no_title_on_empty_counterexample :
    (runEnhance [] [] []).events = [Event.body []]
  ∧ ((runEnhance [] [] []).events.all
        (fun e => match e with | Event.title _ => false | Event.body _ => true)) = true := by
  decide

/-- C3 (amended): at completion the body callback always fires once more
with the finalized body, and the title callback fires with the finalized
title exactly when a newline was seen (the title was already sent at
first-newline discovery) or the finalized title is non-empty; when the title
was never sent and the finalized title is empty — empty or whitespace-only
accumulation with no newline — the title callback is not notified at
completion. -/
theorem enhance_completion_callbacks (t d : List Char) (chunks : List (List Char)) :
    (runEnhance t d (chunks.map some)).events
      = (streamLoop t d chunks).events
        ++ (if (indexOfNL chunks.flatten).isSome
               || !(splitFinal chunks.flatten).1.isEmpty
            then [Event.title (splitFinal chunks.flatten).1] else [])
        ++ [Event.body (splitFinal chunks.flatten).2] := by
  obtain ⟨hacc, _, hsent⟩ := streamLoop_invariant t d chunks
  rw [runEnhance_map_some]
  simp only [finalizeEnh, finalizeEvents, hacc, hsent]
  cases hns : (indexOfNL chunks.flatten).isSome with
  | true => simp
  | false =>
    cases hemp : (splitFinal chunks.flatten).1.isEmpty with
    | true => simp [hemp]
    | false => simp [hemp]

/-- Recognizer for `onSources` invocations in a trace. -/
def isSourcesEvent : CtxEvent → Bool
  | .sources _ => true
  | .chunkText _ => false

/-- Number of `onSources` invocations in a trace. -/
def countSources (evs : List CtxEvent) : Nat :=
  (evs.filter isSourcesEvent).length

theorem countSources_append (a b : List CtxEvent) :
    countSources (a ++ b) = countSources a + countSources b := by
  simp [countSources, List.filter_append]

theorem countSources_ctxChunkEvents (rs : List Response) :
    countSources (ctxChunkEvents rs) = 0 := by
  induction rs with
  | nil => rfl
  | cons r rest ih =>
    cases h : r.text with
    | none => simpa [ctxChunkEvents, h] using ih
    | some s =>
      simpa [ctxChunkEvents, h, countSources, isSourcesEvent] using ih

theorem countSources_successSourceEvents (r : Response) :
    countSources (successSourceEvents (some r)) = 1 := by
  simp only [successSourceEvents]
  cases hg : groundingOf r with
  | none => simp [countSources, isSourcesEvent]
  | some gm =>
    cases hgc : gm.groundingChunks with
    | none => simp [hgc, countSources, isSourcesEvent]
    | some gcs =>
      by_cases h : gcs.length > 0 <;>
        simp [hgc, h, countSources, isSourcesEvent]

theorem countSources_catchSourceEvents (r : Option Response) :
    countSources (catchSourceEvents r) ≤ 1 := by
  cases r with
  | none => simp [catchSourceEvents, countSources]
  | some r =>
    simp only [catchSourceEvents]
    cases hg : groundingOf r with
    | none => simp [countSources]
    | some gm =>
      cases hgc : gm.groundingChunks with
      | none => simp [hgc, countSources]
      | some gcs =>
        by_cases h : gcs.length > 0 <;>
          simp [hgc, h, countSources, isSourcesEvent]

/-- C4 counterexample: a successfully completed session that delivered zero
fragments retains no response (`finalApiResponse` stays `null`), so
`onSources` is never invoked — not invoked exactly once as claimed — even
though the session returns successfully with empty text. -/
theorem ctx_zero_fragment_session_counterexample :
    (streamContextualInfoWithAI [] none).1 = Except.ok []
  ∧ countSources (streamContextualInfoWithAI [] none).2 = 0 :=
  ⟨rfl, rfl⟩

/-- C4 (amended): for every successfully completed session that delivered at
least one response object — including one whose retained response carries no
citation metadata or no passing candidates — `onSources` is invoked exactly
once, with an explicit empty list when there are no passing candidates; a
session that delivered zero response objects does not invoke it. -/
theorem ctx_onSources_exactly_once_when_response_retained
    (rs : List Response) (h : rs ≠ []) :
    countSources (streamContextualInfoWithAI rs none).2 = 1
  ∧ (∀ r, rs.getLast? = some r → sourcesFromResponse r = [] →
      CtxEvent.sources [] ∈ (streamContextualInfoWithAI rs none).2) := by
  obtain ⟨r, hr⟩ := Option.isSome_iff_exists.mp (List.getLast?_isSome.mpr h)
  constructor
  · simp only [streamContextualInfoWithAI, hr]
    rw [countSources_append, countSources_ctxChunkEvents,
      countSources_successSourceEvents]
  · intro r' hr' hempty
    rw [hr] at hr'
    obtain rfl : r = r' := by injection hr'
    simp only [streamContextualInfoWithAI, hr]
    refine List.mem_append_right _ ?_
    revert hempty
    simp only [successSourceEvents, sourcesFromResponse]
    cases hg : groundingOf r with
    | none => intro _; simp
    | some gm =>
      cases hgc : gm.groundingChunks with
      | none => intro _; simp [hgc]
      | some gcs =>
        simp only [hgc]
        intro hempty
        by_cases hlen : gcs.length > 0 <;> simp [hlen, hempty]

/-- Witness for C4 (amended) at a one-response session whose response has no
metadata at all: one `onSources` call, with the empty list. -/
theorem ctx_onSources_exactly_once_when_response_retained_witness :
    countSources (streamContextualInfoWithAI [{ text := none, candidates := none }] none).2 = 1
  ∧ CtxEvent.sources [] ∈ (streamContextualInfoWithAI [{ text := none, candidates := none }] none).2 := by
  have h := ctx_onSources_exactly_once_when_response_retained
    [{ text := none, candidates := none }] (by simp)
  exact ⟨h.1, h.2 { text := none, candidates := none } rfl rfl⟩

/-- C10: in any single invocation of `streamContextualInfoWithAI`, whether
it completes successfully or aborts with a transport error, the `onSources`
callback is invoked at most once. -/
theorem ctx_onSources_at_most_once (rs : List Response) (err : Option JsError) :
    countSources (streamContextualInfoWithAI rs err).2 ≤ 1 := by
  cases err with
  | none =>
    simp only [streamContextualInfoWithAI]
    rw [countSources_append, countSources_ctxChunkEvents]
    cases h : rs.getLast? with
    | none => simp [successSourceEvents, countSources]
    | some r => simp [countSources_successSourceEvents r]
  | some e =>
    simp only [streamContextualInfoWithAI]
    rw [countSources_append, countSources_ctxChunkEvents]
    simpa using countSources_catchSourceEvents rs.getLast?

/-- Following the spec's words, not the code: a uri "begins with an HTTP(S)
scheme" when its scheme component is `http` or `https`, i.e. the text starts
with `http:` or `https:`. -/
def beginsWithHttpScheme (u : List Char) : Bool :=
  List.isPrefixOf "http:".data u || List.isPrefixOf "https:".data u

/-- The title of a kept candidate: the original title, falling back to the
uri when the title is absent or empty (JavaScript `||`). -/
def titleOrUriFallback (w : WebRef) (u : List Char) : List Char :=
  match w.title with
  | none => u
  | some t => if t.isEmpty then u else t

/-- A response whose single citation carries the uri `httpfake`. -/
def httpfakeResponse : Response where
  text := none
  candidates :=
    some [⟨some ⟨some [⟨some ⟨some "httpfake".data, none⟩⟩]⟩⟩]

/-- C5 counterexample: a retained response whose single citation has uri
`httpfake` — which does not begin with an HTTP(S) scheme — is nevertheless
kept and reported by the extraction, because the code only tests the
four-character text prefix `http`. -/
theorem sources_kept_without_http_scheme_counterexample :
    (streamContextualInfoWithAI [httpfakeResponse] none).2
      = [CtxEvent.sources [{ uri := "httpfake".data, title := "httpfake".data }]]
  ∧ beginsWithHttpScheme "httpfake".data = false :=
  ⟨rfl, rfl⟩

/-- C5 (amended): the extraction keeps a citation candidate if and only if
it has a web-type reference whose uri is non-empty and begins with the
four-character text prefix `http` (a weaker test than an HTTP(S) scheme:
`httpfake` also passes), and maps each kept candidate to `{uri, title}`
where the title falls back to the uri when the candidate's title is missing
(or empty); of two candidates with uri `ftp://x` and uri `https://y`, only
the `https://y` entry is reported. -/
theorem sources_kept_iff_http_text_prefix
    (gcs : List GroundingChunkRef) (s : ContextualSource) :
    (s ∈ sourcesOfChunks gcs ↔
      ∃ w : WebRef, some w ∈ gcs.map GroundingChunkRef.web ∧
        w.uri = some s.uri ∧ s.uri ≠ [] ∧ startsWithHttp s.uri = true ∧
        s.title = titleOrUriFallback w s.uri)
  ∧ sourcesOfChunks [⟨some ⟨some "ftp://x".data, none⟩⟩,
        ⟨some ⟨some "https://y".data, none⟩⟩]
      = [{ uri := "https://y".data, title := "https://y".data }] := by
  refine ⟨?_, rfl⟩
  simp only [sourcesOfChunks, List.mem_map, List.mem_filter]
  constructor
  · rintro ⟨ow, ⟨how, hkeep⟩, rfl⟩
    cases ow with
    | none => exact absurd hkeep (by simp [webKeep])
    | some w =>
      cases hu : w.uri with
      | none =>
        rw [show webKeep (some w) = false by simp [webKeep, hu]] at hkeep
        exact absurd hkeep (by simp)
      | some u =>
        have hkeep' : u.isEmpty = false ∧ startsWithHttp u = true := by
          simpa [webKeep, hu, Bool.and_eq_true, Bool.not_eq_true'] using hkeep
        have huri : (webToSource (some w)).uri = u := by simp [webToSource, hu]
        refine ⟨w, how, ?_, ?_, ?_, ?_⟩
        · rw [huri, hu]
        · rw [huri]
          intro hnil
          rw [hnil] at hkeep'
          simp at hkeep'
        · rw [huri]; exact hkeep'.2
        · rw [huri]; simp [webToSource, titleOrUriFallback, hu]
  · rintro ⟨w, how, hu, hne, http, htitle⟩
    refine ⟨some w, ⟨how, ?_⟩, ?_⟩
    · have hie : s.uri.isEmpty = false := by
        cases hi : s.uri.isEmpty with
        | false => rfl
        | true => exact absurd (List.isEmpty_iff.mp hi) hne
      simp [webKeep, hu, hie, http]
    · cases s with
      | mk su st =>
        simp only [titleOrUriFallback] at htitle
        simp only [webToSource, hu]
        simp only at htitle hu ⊢
        rw [ContextualSource.mk.injEq]
        exact ⟨rfl, htitle.symm⟩

/-- C6 counterexample: the JSON object `{"priority": false}` parses as an
object, but the returned priority is the boolean `false` — neither one of
the three literals nor an absent value — because the guard
`if (parsedData.priority)` skips every falsy priority and leaves it
unchanged. -/
theorem parse_priority_false_passes_through_counterexample :
    parseTaskStringWithAI (CallOutcome.response (Except.ok
        (JsonVal.obj [("priority".data, JsonVal.bool false)])))
      = Except.ok ⟨none, none, none, some (JsonVal.bool false), some (JsonVal.arr [])⟩
  ∧ JsonVal.bool false ≠ JsonVal.null
  ∧ isPriorityLiteral (JsonVal.bool false) = false :=
  ⟨rfl, fun h => JsonVal.noConfusion h, rfl⟩

/-- C6 (amended): for every response whose text parses as a JSON object,
`parseTaskStringWithAI` coerces any TRUTHY priority value outside the three
accepted literals to `null`, while falsy priority values (absent, `null`,
`false`, `0`, `""`) pass through unchanged — so any truthy returned priority
is one of the three literals — and coerces a missing or malformed
(non-array) tags field to an empty list, so the returned tags is always an
array (and is preserved whenever it already was one). -/
theorem parse_priority_tags_coercions (fields : List (List Char × JsonVal)) :
    parseTaskStringWithAI (CallOutcome.response (Except.ok (JsonVal.obj fields)))
      = Except.ok (normalizeAiParsedTask (toAiParsedTask fields))
  ∧ (∀ p : Option JsonVal, jsTruthyOpt (normalizePriority p) = true →
      (normalizePriority p).any isPriorityLiteral = true)
  ∧ (∀ p : Option JsonVal, jsTruthyOpt p = false → normalizePriority p = p)
  ∧ (∀ t : Option JsonVal, (normalizeTags t).any isArrayVal = true)
  ∧ (∀ t : Option JsonVal, t.any isArrayVal = true → normalizeTags t = t) := by
  refine ⟨rfl, ?_, ?_, ?_, ?_⟩
  · intro p htruthy
    by_cases ht : jsTruthyOpt p = true
    · cases p with
      | none => simp [jsTruthyOpt] at ht
      | some v =>
        cases hl : isPriorityLiteral v with
        | true => simp [normalizePriority, ht, hl]
        | false =>
          rw [show normalizePriority (some v) = some JsonVal.null by
            simp [normalizePriority, ht, hl]] at htruthy
          simp [jsTruthyOpt, jsTruthy] at htruthy
    · rw [show normalizePriority p = p by
        simp [normalizePriority, Bool.of_not_eq_true ht]] at htruthy
      exact absurd htruthy ht
  · intro p hfalsy
    simp [normalizePriority, hfalsy]
  · intro t
    by_cases hc : (!jsTruthyOpt t || !(t.any isArrayVal)) = true
    · simp [normalizeTags, hc, isArrayVal]
    · have hparts := Bool.or_eq_false_iff.mp (Bool.of_not_eq_true hc)
      have htr : jsTruthyOpt t = true := by simpa using hparts.1
      have harr : t.any isArrayVal = true := by simpa using hparts.2
      simp [normalizeTags, htr, harr]
  · intro t harr
    have htr : jsTruthyOpt t = true := by
      cases t with
      | none => simp at harr
      | some v =>
        cases v <;> simp_all [isArrayVal, jsTruthyOpt, jsTruthy]
    simp [normalizeTags, htr, harr]

/-- Witness for C6 (amended) at concrete inputs: the literal `"Low"`
survives as a literal, an absent priority passes through, tags always end up
an array and an array of tags is preserved. -/
theorem parse_priority_tags_coercions_witness :
    (normalizePriority (some (JsonVal.str "Low".data))).any isPriorityLiteral = true
  ∧ normalizePriority none = none
  ∧ (normalizeTags (some (JsonVal.str "oops".data))).any isArrayVal = true
  ∧ normalizeTags (some (JsonVal.arr [JsonVal.num 3]))
      = some (JsonVal.arr [JsonVal.num 3]) := by
  have h := parse_priority_tags_coercions []
  exact ⟨h.2.1 _ rfl, h.2.2.1 none rfl, h.2.2.2.1 _, h.2.2.2.2 _ rfl⟩

theorem replaceWsRunsAux_of_no_ws {l : List Char} (b : Bool)
    (h : ∀ c ∈ l, isJsWhitespace c = false) : replaceWsRunsAux b l = l := by
  induction l generalizing b with
  | nil => rfl
  | cons c rest ih =>
    have hc := h c (List.mem_cons_self c rest)
    simp [replaceWsRunsAux, hc,
      ih false (fun x hx => h x (List.mem_cons_of_mem c hx))]

theorem replaceWsRuns_of_no_ws {l : List Char}
    (h : ∀ c ∈ l, isJsWhitespace c = false) : replaceWsRuns l = l :=
  replaceWsRunsAux_of_no_ws false h

theorem replaceWsRunsAux_true_ws_prefix {w v : List Char}
    (hws : ∀ c ∈ w, isJsWhitespace c = true)
    (hv : (v.head?.all fun c => !isJsWhitespace c) = true) :
    replaceWsRunsAux true (w ++ v) = replaceWsRunsAux false v := by
  induction w with
  | nil =>
    cases v with
    | nil => rfl
    | cons b v' =>
      simp only [List.head?_cons, Option.all_some, Bool.not_eq_true'] at hv
      simp [replaceWsRunsAux, hv]
  | cons x xs ih =>
    have hx := hws x (List.mem_cons_self x xs)
    simp only [List.cons_append]
    simp [replaceWsRunsAux, hx,
      ih (fun c hc => hws c (List.mem_cons_of_mem x hc))]

theorem replaceWsRunsAux_run_to_hyphen
    (w v : List Char) (hw : w ≠ [])
    (hws : ∀ c ∈ w, isJsWhitespace c = true)
    (hv : (v.head?.all fun c => !isJsWhitespace c) = true) :
    ∀ (b : Bool) (u : List Char),
      (u.getLast?.all fun c => !isJsWhitespace c) = true →
      (u = [] → b = false) →
      replaceWsRunsAux b (u ++ w ++ v)
        = replaceWsRunsAux b u ++ '-' :: replaceWsRunsAux false v := by
  intro b u
  induction u generalizing b with
  | nil =>
    intro _ hb
    rw [hb rfl]
    obtain ⟨wc, wr, rfl⟩ := List.exists_cons_of_ne_nil hw
    have hwc := hws wc (List.mem_cons_self wc wr)
    simp only [List.nil_append, List.cons_append]
    simp [replaceWsRunsAux, hwc,
      replaceWsRunsAux_true_ws_prefix
        (fun c hc => hws c (List.mem_cons_of_mem wc hc)) hv]
  | cons a u' ih =>
    intro hu _
    cases ha : isJsWhitespace a with
    | false =>
      have hu' : (u'.getLast?.all fun c => !isJsWhitespace c) = true := by
        cases u' with
        | nil => rfl
        | cons b' l => rwa [List.getLast?_cons_cons] at hu
      have step := ih false hu' (fun _ => rfl)
      rw [List.append_assoc] at step
      simp only [List.cons_append]
      simp [replaceWsRunsAux, ha, step]
    | true =>
      have hu'ne : u' ≠ [] := by
        intro hnil
        subst hnil
        simp only [List.getLast?_singleton, Option.all_some,
          Bool.not_eq_true'] at hu
        rw [hu] at ha
        cases ha
      have hu' : (u'.getLast?.all fun c => !isJsWhitespace c) = true := by
        obtain ⟨b', l, rfl⟩ := List.exists_cons_of_ne_nil hu'ne
        rwa [List.getLast?_cons_cons] at hu
      have step := ih true hu' (fun h => absurd h hu'ne)
      rw [List.append_assoc] at step
      simp only [List.cons_append]
      cases b <;> simp [replaceWsRunsAux, ha, step]

/-- The core of the run-replacement behaviour: one maximal whitespace run —
wherever it sits, the ends included — becomes exactly one hyphen. -/
theorem replaceWsRuns_run_to_hyphen
    (u w v : List Char) (hw : w ≠ [])
    (hws : ∀ c ∈ w, isJsWhitespace c = true)
    (hu : (u.getLast?.all fun c => !isJsWhitespace c) = true)
    (hv : (v.head?.all fun c => !isJsWhitespace c) = true) :
    replaceWsRuns (u ++ w ++ v) = replaceWsRuns u ++ '-' :: replaceWsRuns v :=
  replaceWsRunsAux_run_to_hyphen w v hw hws hv false u hu (fun _ => rfl)

/-- Following the spec's words, not the code: lowercase, then replace only
the INTERNAL whitespace runs with a hyphen, leaving leading and trailing
whitespace untouched. -/
def internalOnlyNormalizeTag (s : List Char) : List Char :=
  let low := s.map Char.toLower
  let lead := low.takeWhile isJsWhitespace
  let rest := low.dropWhile isJsWhitespace
  let core := (rest.reverse.dropWhile isJsWhitespace).reverse
  let trail := (rest.reverse.takeWhile isJsWhitespace).reverse
  lead ++ replaceWsRuns core ++ trail

/-- C7 counterexample: for the response array `[" a"]` the returned tag is
`"-a"` — the LEADING whitespace run was also turned into a hyphen — whereas
transforming only internal whitespace runs would leave `" a"` unchanged. -/
theorem suggest_tags_edge_whitespace_counterexample :
    suggestTagsWithAI (CallOutcome.response (Except.ok
        (JsonVal.arr [JsonVal.str " a".data])))
      = Except.ok ["-a".data]
  ∧ internalOnlyNormalizeTag " a".data = " a".data
  ∧ " a".data ≠ "-a".data :=
  ⟨rfl, rfl, by decide⟩

/-- C7 (amended): each tag returned by `suggestTagsWithAI` is the
corresponding response-array element lowercased with EVERY maximal
whitespace run — leading, internal, or trailing — replaced by a single
hyphen: the run-free parts are preserved verbatim and each run, wherever it
sits, contributes exactly one hyphen. -/
theorem suggest_tags_normalization_replaces_all_ws_runs
    (l : List (List Char)) (s u w v : List Char)
    (hw : w ≠ []) (hws : ∀ c ∈ w, isJsWhitespace c = true)
    (hu : (u.getLast?.all fun c => !isJsWhitespace c) = true)
    (hv : (v.head?.all fun c => !isJsWhitespace c) = true)
    (hs : ∀ c ∈ s, isJsWhitespace c = false) :
    suggestTagsWithAI (CallOutcome.response (Except.ok
        (JsonVal.arr (l.map JsonVal.str))))
      = Except.ok (l.map normalizeTag)
  ∧ replaceWsRuns s = s
  ∧ replaceWsRuns (u ++ w ++ v) = replaceWsRuns u ++ '-' :: replaceWsRuns v := by
  refine ⟨?_, replaceWsRuns_of_no_ws hs,
    replaceWsRuns_run_to_hyphen u w v hw hws hu hv⟩
  have hfm : (l.map JsonVal.str).filterMap asString = l := by
    induction l with
    | nil => rfl
    | cons x xs ih => simp [asString, List.filterMap_cons, ih]
  simp [suggestTagsWithAI, asString, hfm]

/-- Witness for C7 (amended) at concrete inputs: `["A b"]` yields `["a-b"]`,
`"x"` is untouched, and the run in `"a" ++ " " ++ "b"` becomes one hyphen. -/
theorem suggest_tags_normalization_replaces_all_ws_runs_witness :
    suggestTagsWithAI (CallOutcome.response (Except.ok
        (JsonVal.arr [JsonVal.str "A b".data])))
      = Except.ok ["a-b".data]
  ∧ replaceWsRuns "x".data = "x".data
  ∧ replaceWsRuns ("a".data ++ " ".data ++ "b".data)
      = replaceWsRuns "a".data ++ '-' :: replaceWsRuns "b".data := by
  have h := suggest_tags_normalization_replaces_all_ws_runs
    ["A b".data] "x".data "a".data " ".data "b".data
    (by decide) (by decide) (by decide) (by decide) (by decide)
  exact ⟨h.1.trans rfl, h.2.1, h.2.2⟩

/-- C8 counterexample: a transport error `network down` is NOT re-raised
unchanged by `parseTaskStringWithAI` — its catch block throws a fresh
reworded error — nor by `suggestTagsWithAI`, whose catch block throws a
fixed failure error; both differ from the original error value. -/
theorem transport_error_rewrapped_counterexample :
    parseTaskStringWithAI (CallOutcome.transportError ⟨"network down".data⟩)
      = Except.error ⟨"Failed to parse task with AI. Details: network down".data⟩
  ∧ JsError.mk "Failed to parse task with AI. Details: network down".data
      ≠ ⟨"network down".data⟩
  ∧ suggestTagsWithAI (CallOutcome.transportError ⟨"network down".data⟩)
      = Except.error ⟨"Failed to suggest tags with AI.".data⟩
  ∧ JsError.mk "Failed to suggest tags with AI.".data ≠ ⟨"network down".data⟩ :=
  ⟨rfl, by decide, rfl, by decide⟩

/-- C8 (amended): the three streaming operations re-raise a transport error
unchanged — `streamContextualInfoWithAI` after its best-effort source
extraction — but `parseTaskStringWithAI` and `suggestTagsWithAI` catch every
error and throw a fresh one instead: parse's replacement message always
differs from the original error's message. -/
theorem transport_error_reraising (e : JsError) (t d : List Char)
    (chunks : List (Option (List Char))) (rs : List Response) :
    (enhanceTaskWithAIStream t d chunks (some e)).1 = Except.error e
  ∧ (streamSubTasksWithAI chunks (some e)).1 = Except.error e
  ∧ (streamContextualInfoWithAI rs (some e)).1 = Except.error e
  ∧ (streamContextualInfoWithAI rs (some e)).2
      = ctxChunkEvents rs ++ catchSourceEvents rs.getLast?
  ∧ parseTaskStringWithAI (CallOutcome.transportError e)
      = Except.error (parseTaskCatch e)
  ∧ (parseTaskCatch e).message ≠ e.message
  ∧ suggestTagsWithAI (CallOutcome.transportError e)
      = Except.error suggestTagsFailure := by
  refine ⟨rfl, rfl, rfl, rfl, rfl, ?_, rfl⟩
  intro h
  have hlen := congrArg List.length h
  simp [parseTaskCatch] at hlen
  omega

/-- C9: if the response text of `suggestTagsWithAI` parses as valid JSON but
the parsed value is not an array whose every element is a string, the
function returns the empty list rather than raising a malformed-response
error; an error is raised only when JSON parsing itself fails. -/
theorem suggest_tags_malformed_value_returns_empty (j : JsonVal) (e : JsError) :
    (isStringArray j = false →
        suggestTagsWithAI (CallOutcome.response (Except.ok j)) = Except.ok [])
  ∧ (∃ ts, suggestTagsWithAI (CallOutcome.response (Except.ok j)) = Except.ok ts)
  ∧ suggestTagsWithAI (CallOutcome.response (Except.error e))
      = Except.error suggestTagsFailure := by
  refine ⟨?_, ?_, rfl⟩
  · intro hnot
    cases j with
    | arr l =>
      have : (l.all fun v => (asString v).isSome) = false := by
        simpa [isStringArray] using hnot
      simp [suggestTagsWithAI, this]
    | null => rfl
    | bool b => rfl
    | num n => rfl
    | str s => rfl
    | obj fields => rfl
  · cases j with
    | arr l =>
      by_cases hall : (l.all fun v => (asString v).isSome) = true
      · exact ⟨(l.filterMap asString).map normalizeTag, by simp [suggestTagsWithAI, hall]⟩
      · exact ⟨[], by simp [suggestTagsWithAI, Bool.of_not_eq_true hall]⟩
    | null => exact ⟨[], rfl⟩
    | bool b => exact ⟨[], rfl⟩
    | num n => exact ⟨[], rfl⟩
    | str s => exact ⟨[], rfl⟩
    | obj fields => exact ⟨[], rfl⟩

/-- Witness for C9 at a JSON number and a parse-failure error. -/
theorem suggest_tags_malformed_value_returns_empty_witness :
    suggestTagsWithAI (CallOutcome.response (Except.ok (JsonVal.num 5)))
      = Except.ok []
  ∧ suggestTagsWithAI (CallOutcome.response (Except.error ⟨"bad json".data⟩))
      = Except.error suggestTagsFailure := by
  have h := suggest_tags_malformed_value_returns_empty (JsonVal.num 5) ⟨"bad json".data⟩
  exact ⟨h.1 rfl, h.2.2⟩

end Taskmaster
